import Mathlib

/-!
Shallow embedding of the kv-store core (`src/kv-store-lib/src/lib.rs`).

The Rust code builds on `evmap` (a map whose writer stages operations in a
pending log that becomes reader-visible only on `refresh`), a
`DoublePriorityQueue` used as the TTL expiration index, and a background
reclamation loop that, in each cycle: drains the pending log into the index,
sweeps expired entries (condition `Utc::now() > expiry`, strict), and then
refreshes (publishes) all staged mutations.

Modelling choices:
- `DateTime<Utc>` instants and millisecond durations become `Int`
  milliseconds; `Utc::now() + Duration::milliseconds(t)` is `now + t` when
  the sum stays inside chrono's representable `DateTime` range, and panics
  outside it (`chronoAddMs` and `Store.insertChecked` model that range
  check; the plain `Store.insert` covers the in-range behaviour, where the
  unbounded-`Int` sum coincides with chrono's). The clock sample taken by
  a sweep is a single `now` parameter per cycle.
- The evmap write handle's view (`contains_key`, used by insert/delete) reads
  the published side, so `containsKey` inspects `published` only.
- evmap is a multimap: `Operation::Add` appends to a key's value bag,
  `Operation::Empty` removes the whole bag; `get_one` returns the first value.
- `serde_json::Value` is modelled by `Json` with a serializer covering the
  shapes the store manipulates; `Value::to_string()` is `Json.serialize`.
-/

namespace KV

abbrev Key := String

/-- Mirrors `StoredValue { data: String, ttl: Option<DateTime<Utc>> }`:
a serialized payload and an optional absolute expiry instant. -/
structure StoredValue where
  data : String
  ttl : Option Int
deriving DecidableEq, Repr

/-- Mirrors `ModelError`. -/
inductive ModelError where
  | notFound
  | alreadyPresent
deriving DecidableEq, Repr

/-- The evmap operations the store stages in the write handle's pending log
(the only `evmap::Operation` variants this program produces). -/
inductive Op where
  | add (k : Key) (v : StoredValue)
  | empty (k : Key)
deriving DecidableEq, Repr

/-- The key an operation concerns. -/
def Op.key : Op → Key
  | .add k _ => k
  | .empty k => k

abbrev Bag := List StoredValue
abbrev PubMap := List (Key × Bag)

/-- First bag associated to `k` in the published map (evmap read view). -/
def lookupBag : PubMap → Key → Option Bag
  | [], _ => none
  | (k', b) :: rest, k => if k' = k then some b else lookupBag rest k

/-- Append a value to `k`'s bag, creating the bag when absent
(evmap `Operation::Add` application). -/
def bagAdd : PubMap → Key → StoredValue → PubMap
  | [], k, v => [(k, [v])]
  | (k', b) :: rest, k, v =>
    if k' = k then (k', b ++ [v]) :: rest else (k', b) :: bagAdd rest k v

/-- Remove every entry for `k` (evmap `Operation::Empty` application). -/
def removeKey : PubMap → Key → PubMap
  | [], _ => []
  | (k', b) :: rest, k =>
    if k' = k then removeKey rest k else (k', b) :: removeKey rest k

/-- Apply one staged operation to the published map. -/
def applyOp (m : PubMap) : Op → PubMap
  | .add k v => bagAdd m k v
  | .empty k => removeKey m k

/-- Apply a pending log in order (what `refresh` exposes to readers). -/
def applyOps (m : PubMap) : List Op → PubMap
  | [] => m
  | op :: rest => applyOps (applyOp m op) rest

/-- `WriteHandle::contains_key` / `ReadHandle::contains_key`: does the key
hold at least one published value. -/
def containsKey (m : PubMap) (k : Key) : Bool := (lookupBag m k).isSome

/-- A minimal model of `serde_json::Value`. -/
inductive Json where
  | null
  | bool (b : Bool)
  | num (n : Int)
  | str (s : String)
deriving DecidableEq, Repr

/-- JSON string escaping for one character (quote and backslash). -/
def escapeChar (c : Char) : String :=
  if c = '"' then "\\\"" else if c = '\\' then "\\\\" else String.singleton c

/-- JSON string escaping. -/
def escapeString (s : String) : String := String.join (s.toList.map escapeChar)

/-- `Value::to_string()`: serialize a JSON value. -/
def Json.serialize : Json → String
  | .null => "null"
  | .bool true => "true"
  | .bool false => "false"
  | .num n => toString n
  | .str s => "\"" ++ escapeString s ++ "\""

/-- The TTL expiration index, modelling `DoublePriorityQueue<KeyType,
DateTime<Utc>>`: an association of keys to expiry instants. -/
abbrev Queue := List (Key × Int)

/-- `DoublePriorityQueue::get(k)`: the tracked expiry of `k`, if any. -/
def qlookup : Queue → Key → Option Int
  | [], _ => none
  | (k', p) :: rest, k => if k' = k then some p else qlookup rest k

/-- `DoublePriorityQueue::push(k, p)`: insert or update `k`'s expiry. -/
def qpush : Queue → Key → Int → Queue
  | [], k, p => [(k, p)]
  | (k', p') :: rest, k, p =>
    if k' = k then (k, p) :: rest else (k', p') :: qpush rest k p

/-- `DoublePriorityQueue::remove(k)`: drop `k`'s entry. -/
def qremove : Queue → Key → Queue
  | [], _ => []
  | (k', p) :: rest, k =>
    if k' = k then qremove rest k else (k', p) :: qremove rest k

/-- `DoublePriorityQueue::peek_min()`: an entry of minimal expiry
(deterministic tie-break: earliest in list order). -/
def peekMin : Queue → Option (Key × Int)
  | [] => none
  | e :: rest =>
    match peekMin rest with
    | none => some e
    | some m => if e.2 ≤ m.2 then some e else some m

/-- The full write-side state: the published (reader-visible) map, the
pending operation log, and the reclamation loop's expiration index. -/
structure SysState where
  published : PubMap
  oplog : List Op
  queue : Queue
deriving DecidableEq, Repr

/-- The state right after `Store::init`'s initial `refresh`. -/
def initState : SysState := ⟨[], [], []⟩

/-- `Store::insert`: computes the absolute expiry, rejects a key that already
holds a live (published) value, otherwise stages an `Add`. -/
def Store.insert (s : SysState) (k : Key) (value : Json) (ttl : Option Int)
    (now : Int) : Except ModelError Unit × SysState :=
  let current_ttl := ttl.map (fun t => now + t)
  if containsKey s.published k then
    (.error .alreadyPresent, s)
  else
    (.ok (), { s with
      oplog := s.oplog ++ [Op.add k ⟨Json.serialize value, current_ttl⟩] })

/-- `Store::delete`: rejects a key with no live value, otherwise stages an
`Empty`. -/
def Store.delete (s : SysState) (k : Key) : Except ModelError Unit × SysState :=
  if ¬ containsKey s.published k then
    (.error .notFound, s)
  else
    (.ok (), { s with oplog := s.oplog ++ [Op.empty k] })

/-- `Store::get`: reads the published view through a read handle and wraps
`get_one`'s payload as a JSON string. -/
def Store.get (published : PubMap) (k : Key) : Except ModelError (Option Json) :=
  .ok (((lookupBag published k).bind List.head?).map (fun v => Json.str v.data))

/-- Modelled from the source's chrono dependency: the timestamp of chrono's
`DateTime::<Utc>::MIN_UTC` (`-262144-01-01T00:00:00Z`) in whole
milliseconds; instants before it are not representable. -/
def chronoMinMs : Int := -8334632851200000

/-- Modelled from the source's chrono dependency: the timestamp of chrono's
`DateTime::<Utc>::MAX_UTC` (`+262143-12-31T23:59:59.999999999Z`) in whole
milliseconds; instants after it are not representable. -/
def chronoMaxMs : Int := 8210298412799999

/-- `Utc::now() + Duration::milliseconds(t)` as chrono computes it: the
`Add` impl is `checked_add_signed(..).expect(..)`, which yields the sum only
while it stays representable and panics (`none`) outside the range. -/
def chronoAddMs (now t : Int) : Option Int :=
  if chronoMinMs ≤ now + t ∧ now + t ≤ chronoMaxMs then some (now + t)
  else none

/-- `Store::insert` with the expiry computation's chrono range check made
explicit: `none` models the panic of `Utc::now() + Duration::milliseconds`
(lib.rs line 45) on overflow, which happens before the `contains_key` test;
when the sum is representable the behaviour is exactly `Store.insert`, whose
unbounded-`Int` expiry then coincides with chrono's. -/
def Store.insertChecked (s : SysState) (k : Key) (value : Json)
    (ttl : Option Int) (now : Int) :
    Option (Except ModelError Unit × SysState) :=
  match ttl with
  | none => some (Store.insert s k value none now)
  | some t =>
    (chronoAddMs now t).map (fun _ => Store.insert s k value (some t) now)

/-- One drain step of the reclamation loop: an `Add` whose value carries a
TTL is pushed into the index; an `Empty` removes the key from the index when
tracked. -/
def drainOp (q : Queue) : Op → Queue
  | .add k v =>
    match v.ttl with
    | some e => qpush q k e
    | none => q
  | .empty k => if (qlookup q k).isSome then qremove q k else q

/-- Drain the pending log, in order, into the expiration index. -/
def drain (q : Queue) : List Op → Queue
  | [] => q
  | op :: rest => drain (drainOp q op) rest

/-- The expiry sweep: while the minimum exists and its expiry is strictly
before `now` (`Utc::now() > *expiry`), stage an `Empty` for that key and pop
it. `fuel` bounds the iteration; every iteration removes an entry, so
`queue.length` fuel is enough. Returns the surviving index and the staged
eviction operations, in order. -/
def sweepGo : Nat → Int → Queue → Queue × List Op
  | 0, _, q => (q, [])
  | fuel + 1, now, q =>
    match peekMin q with
    | none => (q, [])
    | some (k, e) =>
      if e < now then
        let r := sweepGo fuel now (qremove q k)
        (r.1, Op.empty k :: r.2)
      else (q, [])

/-- One reclamation cycle (one iteration of the loop in `Store::init`):
drain the pending log into the index, sweep expired entries (staging their
evictions), then refresh, publishing the whole log. -/
def cycle (now : Int) (s : SysState) : SysState :=
  let q1 := drain s.queue s.oplog
  let r := sweepGo q1.length now q1
  { published := applyOps s.published (s.oplog ++ r.2)
    oplog := []
    queue := r.1 }

/-- The actions that drive the write-side state. -/
inductive Act where
  | ins (k : Key) (v : Json) (ttl : Option Int) (now : Int)
  | del (k : Key)
  | cyc (now : Int)
deriving DecidableEq, Repr

/-- Apply one action. -/
def applyAct (s : SysState) : Act → SysState
  | .ins k v ttl now => (Store.insert s k v ttl now).2
  | .del k => (Store.delete s k).2
  | .cyc now => cycle now s

/-- Run a sequence of actions. -/
def run (s : SysState) : List Act → SysState
  | [] => s
  | a :: rest => run (applyAct s a) rest

/-- The states reachable from the freshly initialized store. -/
inductive Reachable : SysState → Prop
  | init : Reachable initState
  | step {s : SysState} (a : Act) : Reachable s → Reachable (applyAct s a)

/-- The key currently holds a live (published) value carrying a non-null
TTL. -/
def hasLiveTtlB (m : PubMap) (k : Key) : Bool :=
  match lookupBag m k with
  | none => false
  | some b => b.any (fun v => v.ttl.isSome)

/-- The map/index consistency relation: a key is tracked in the expiration
index exactly when it holds a live value with a non-null TTL. -/
def InvP (m : PubMap) (q : Queue) : Prop :=
  ∀ k, (qlookup q k).isSome = hasLiveTtlB m k

/-! ### Basic sanity checks -/

example : (Store.insert initState "k" (.str "v") none 0).1 = .ok () := rfl

example :
    Store.get (cycle 0 (Store.insert initState "key" (.str "value") none 0).2).published "key"
      = .ok (some (.str "\"value\"")) := rfl

/-! ### C1: double insert is rejected and leaves the state unchanged -/

/-- C1: if `k` already holds a live value, `insert(k, v2, ttl)` fails with
`AlreadyPresent` for every `v2` and `ttl`, the state is unchanged, and the
original value remains retrievable. -/
theorem insert_already_present (s : SysState) (k : Key) (v2 : Json)
    (ttl : Option Int) (now : Int) (h : containsKey s.published k = true) :
    Store.insert s k v2 ttl now = (.error .alreadyPresent, s) ∧
      Store.get (Store.insert s k v2 ttl now).2.published k
        = Store.get s.published k := by
  constructor
  · simp [Store.insert, h]
  · simp [Store.insert, h]

/-- Witness for C1 at a concrete state holding a live value. -/
theorem insert_already_present_witness :
    containsKey (⟨[("k", [⟨"\"v\"", none⟩])], [], []⟩ : SysState).published "k" = true ∧
      Store.insert ⟨[("k", [⟨"\"v\"", none⟩])], [], []⟩ "k" (.str "w") (some 5) 0
          = (.error .alreadyPresent, ⟨[("k", [⟨"\"v\"", none⟩])], [], []⟩) ∧
        Store.get (Store.insert ⟨[("k", [⟨"\"v\"", none⟩])], [], []⟩ "k" (.str "w") (some 5) 0).2.published "k"
          = Store.get (⟨[("k", [⟨"\"v\"", none⟩])], [], []⟩ : SysState).published "k" :=
  ⟨by decide, insert_already_present ⟨[("k", [⟨"\"v\"", none⟩])], [], []⟩ "k" (.str "w") (some 5) 0 (by decide)⟩

/-! ### C5: delete fails with NotFound exactly on missing keys -/

/-- C5: `delete(k)` fails with `NotFound` exactly when `k` has no live value;
when `k` has a live value it succeeds and stages the removal of `k`. -/
theorem delete_spec (s : SysState) (k : Key) :
    ((Store.delete s k).1 = .error .notFound ↔ containsKey s.published k = false) ∧
      (containsKey s.published k = true →
        Store.delete s k = (.ok (), { s with oplog := s.oplog ++ [Op.empty k] })) := by
  constructor
  · by_cases h : containsKey s.published k
    · simp [Store.delete, h]
    · simp [Store.delete, h]
  · intro h
    simp [Store.delete, h]

/-- Witness for C5 at a concrete state holding a live value. -/
theorem delete_spec_witness :
    (((Store.delete ⟨[("k", [⟨"\"v\"", none⟩])], [], []⟩ "k").1 = .error .notFound ↔
        containsKey (⟨[("k", [⟨"\"v\"", none⟩])], [], []⟩ : SysState).published "k" = false) ∧
      (containsKey (⟨[("k", [⟨"\"v\"", none⟩])], [], []⟩ : SysState).published "k" = true →
        Store.delete ⟨[("k", [⟨"\"v\"", none⟩])], [], []⟩ "k"
          = (.ok (), { (⟨[("k", [⟨"\"v\"", none⟩])], [], []⟩ : SysState) with
              oplog := [Op.empty "k"] }))) ∧
      containsKey (⟨[("k", [⟨"\"v\"", none⟩])], [], []⟩ : SysState).published "k" = true :=
  ⟨delete_spec ⟨[("k", [⟨"\"v\"", none⟩])], [], []⟩ "k", by decide⟩

/-! ### C9: get never returns an error -/

/-- C9: `get` always returns `Ok` — `Ok(None)` on a miss, `Ok(Some _)` on a
hit; it never produces an error value itself. -/
theorem get_never_errors (published : PubMap) (k : Key) :
    ∃ o : Option Json, Store.get published k = .ok o :=
  ⟨_, rfl⟩

/-! ### Queue lemmas -/

theorem qlookup_qpush_self (q : Queue) (k : Key) (e : Int) :
    qlookup (qpush q k e) k = some e := by
  induction q with
  | nil => simp [qpush, qlookup]
  | cons hd tl ih =>
    obtain ⟨k', p'⟩ := hd
    by_cases h : k' = k
    · simp [qpush, h, qlookup]
    · simp [qpush, h, qlookup, ih]

theorem qlookup_qpush_ne (q : Queue) (k k' : Key) (e : Int) (h : k' ≠ k) :
    qlookup (qpush q k e) k' = qlookup q k' := by
  induction q with
  | nil => simp [qpush, qlookup, Ne.symm h]
  | cons hd tl ih =>
    obtain ⟨k1, p1⟩ := hd
    by_cases h1 : k1 = k
    · subst h1
      simp [qpush, qlookup, Ne.symm h]
    · simp [qpush, h1, qlookup, ih]

theorem qlookup_qremove_self (q : Queue) (k : Key) :
    qlookup (qremove q k) k = none := by
  induction q with
  | nil => simp [qremove, qlookup]
  | cons hd tl ih =>
    obtain ⟨k', p'⟩ := hd
    by_cases h : k' = k
    · simp [qremove, h, ih]
    · simp [qremove, h, qlookup, ih]

theorem qlookup_qremove_ne (q : Queue) (k k' : Key) (h : k' ≠ k) :
    qlookup (qremove q k) k' = qlookup q k' := by
  induction q with
  | nil => simp [qremove, qlookup]
  | cons hd tl ih =>
    obtain ⟨k1, p1⟩ := hd
    by_cases h1 : k1 = k
    · subst h1
      simp [qremove, qlookup, Ne.symm h, ih]
    · simp [qremove, h1, qlookup, ih]

theorem qlookup_qremove_none (q : Queue) (k k0 : Key)
    (h : qlookup q k = none) : qlookup (qremove q k0) k = none := by
  by_cases hk : k = k0
  · subst hk; exact qlookup_qremove_self q k
  · rw [qlookup_qremove_ne q k0 k hk]; exact h

theorem qremove_of_none (q : Queue) (k : Key) (h : qlookup q k = none) :
    qremove q k = q := by
  induction q with
  | nil => simp [qremove]
  | cons hd tl ih =>
    obtain ⟨k', p'⟩ := hd
    by_cases h1 : k' = k
    · simp [qlookup, h1] at h
    · simp [qlookup, h1] at h
      simp [qremove, h1, ih h]

theorem qlookup_mem (q : Queue) (k : Key) (e : Int)
    (h : qlookup q k = some e) : (k, e) ∈ q := by
  induction q with
  | nil => simp [qlookup] at h
  | cons hd tl ih =>
    obtain ⟨k', p'⟩ := hd
    by_cases h1 : k' = k
    · subst h1
      simp [qlookup] at h
      simp [h]
    · simp [qlookup, h1] at h
      exact List.mem_cons_of_mem _ (ih h)

theorem qlookup_isSome_of_mem (q : Queue) (k : Key) (e : Int)
    (h : (k, e) ∈ q) : (qlookup q k).isSome = true := by
  induction q with
  | nil => simp at h
  | cons hd tl ih =>
    obtain ⟨k', p'⟩ := hd
    rcases List.mem_cons.mp h with h1 | h1
    · have : k' = k := by
        have := congrArg Prod.fst h1.symm
        simpa using this
      simp [qlookup, this]
    · by_cases h2 : k' = k
      · simp [qlookup, h2]
      · simp [qlookup, h2]
        exact ih h1

theorem length_qremove_le (q : Queue) (k : Key) :
    (qremove q k).length ≤ q.length := by
  induction q with
  | nil => simp [qremove]
  | cons hd tl ih =>
    obtain ⟨k', p'⟩ := hd
    by_cases h : k' = k
    · simp [qremove, h]
      exact Nat.le_succ_of_le ih
    · simp [qremove, h]
      exact ih

theorem length_qremove_lt (q : Queue) (k : Key) (e : Int)
    (h : (k, e) ∈ q) : (qremove q k).length < q.length := by
  induction q with
  | nil => simp at h
  | cons hd tl ih =>
    obtain ⟨k', p'⟩ := hd
    by_cases h1 : k' = k
    · simp [qremove, h1]
      exact Nat.lt_succ_of_le (length_qremove_le tl k)
    · rcases List.mem_cons.mp h with h2 | h2
      · exfalso
        apply h1
        have := congrArg Prod.fst h2.symm
        simpa using this
      · simp [qremove, h1]
        exact ih h2

theorem peekMin_eq_none (q : Queue) : peekMin q = none ↔ q = [] := by
  cases q with
  | nil => simp [peekMin]
  | cons hd tl =>
    simp only [peekMin]
    constructor
    · intro h
      cases hm : peekMin tl with
      | none => simp [hm] at h
      | some m =>
        rw [hm] at h
        by_cases hle : hd.2 ≤ m.2 <;> simp [hle] at h
    · intro h
      cases h

theorem peekMin_mem (q : Queue) :
    ∀ p : Key × Int, peekMin q = some p → p ∈ q := by
  induction q with
  | nil => intro p h; simp [peekMin] at h
  | cons hd tl ih =>
    intro p h
    cases hm : peekMin tl with
    | none =>
      simp only [peekMin, hm] at h
      have h1 := Option.some.inj h
      subst h1
      exact List.mem_cons_self hd tl
    | some m =>
      simp only [peekMin, hm] at h
      by_cases hle : hd.2 ≤ m.2
      · rw [if_pos hle] at h
        have h1 := Option.some.inj h
        subst h1
        exact List.mem_cons_self hd tl
      · rw [if_neg hle] at h
        have h1 := Option.some.inj h
        subst h1
        exact List.mem_cons_of_mem _ (ih m hm)

theorem peekMin_min (q : Queue) :
    ∀ p : Key × Int, peekMin q = some p → ∀ p' ∈ q, p.2 ≤ p'.2 := by
  induction q with
  | nil => intro p h; simp [peekMin] at h
  | cons hd tl ih =>
    intro p h p' hp'
    cases hm : peekMin tl with
    | none =>
      have htl : tl = [] := (peekMin_eq_none tl).mp hm
      subst htl
      simp only [peekMin] at h
      have h1 := Option.some.inj h
      subst h1
      rcases List.mem_cons.mp hp' with h2 | h2
      · simp [h2]
      · simp at h2
    | some m =>
      simp only [peekMin, hm] at h
      by_cases hle : hd.2 ≤ m.2
      · rw [if_pos hle] at h
        have h1 := Option.some.inj h
        subst h1
        rcases List.mem_cons.mp hp' with h2 | h2
        · simp [h2]
        · exact le_trans hle (ih m hm p' h2)
      · rw [if_neg hle] at h
        have h1 := Option.some.inj h
        subst h1
        rcases List.mem_cons.mp hp' with h2 | h2
        · rw [h2]
          exact le_of_lt (lt_of_not_le hle)
        · exact ih m hm p' h2

/-! ### Sweep lemmas -/

theorem sweep_ge (fuel : Nat) (now : Int) :
    ∀ (q : Queue), q.length ≤ fuel → ∀ (k : Key) (e : Int),
      qlookup (sweepGo fuel now q).1 k = some e → now ≤ e := by
  induction fuel with
  | zero =>
    intro q hq k e h
    rw [List.length_eq_zero.mp (Nat.le_zero.mp hq)] at h
    simp [sweepGo, qlookup] at h
  | succ fuel ih =>
    intro q hq k e h
    cases hp : peekMin q with
    | none =>
      rw [(peekMin_eq_none q).mp hp] at h
      simp [sweepGo, peekMin, qlookup] at h
    | some p =>
      obtain ⟨k0, e0⟩ := p
      by_cases hlt : e0 < now
      · have hmem := peekMin_mem q (k0, e0) hp
        have hlen : (qremove q k0).length ≤ fuel :=
          Nat.lt_succ_iff.mp (Nat.lt_of_lt_of_le (length_qremove_lt q k0 e0 hmem) hq)
        simp only [sweepGo, hp, hlt, if_pos] at h
        exact ih (qremove q k0) hlen k e h
      · simp only [sweepGo, hp, if_neg hlt] at h
        have hmem := qlookup_mem q k e h
        have h1 := peekMin_min q (k0, e0) hp (k, e) hmem
        have h2 : now ≤ e0 := not_lt.mp hlt
        exact le_trans h2 h1

theorem sweep_none (fuel : Nat) (now : Int) :
    ∀ (q : Queue) (k : Key), qlookup q k = none →
      qlookup (sweepGo fuel now q).1 k = none := by
  induction fuel with
  | zero => intro q k h; simpa [sweepGo] using h
  | succ fuel ih =>
    intro q k h
    cases hp : peekMin q with
    | none => simpa [sweepGo, hp] using h
    | some p =>
      obtain ⟨k0, e0⟩ := p
      by_cases hlt : e0 < now
      · simp only [sweepGo, hp, hlt, if_pos]
        exact ih (qremove q k0) k (qlookup_qremove_none q k k0 h)
      · simpa [sweepGo, hp, hlt] using h

theorem sweep_evict (fuel : Nat) (now : Int) :
    ∀ (q : Queue), q.length ≤ fuel → ∀ (k : Key) (e : Int),
      qlookup q k = some e → e < now →
      qlookup (sweepGo fuel now q).1 k = none ∧
        Op.empty k ∈ (sweepGo fuel now q).2 := by
  induction fuel with
  | zero =>
    intro q hq k e h he
    rw [List.length_eq_zero.mp (Nat.le_zero.mp hq)] at h
    simp [qlookup] at h
  | succ fuel ih =>
    intro q hq k e h he
    cases hp : peekMin q with
    | none =>
      rw [(peekMin_eq_none q).mp hp] at h
      simp [qlookup] at h
    | some p =>
      obtain ⟨k0, e0⟩ := p
      by_cases hlt : e0 < now
      · have hmem := peekMin_mem q (k0, e0) hp
        have hlen : (qremove q k0).length ≤ fuel :=
          Nat.lt_succ_iff.mp (Nat.lt_of_lt_of_le (length_qremove_lt q k0 e0 hmem) hq)
        by_cases hk : k = k0
        · subst hk
          constructor
          · simp only [sweepGo, hp, hlt, if_pos]
            exact sweep_none fuel now (qremove q k) k (qlookup_qremove_self q k)
          · simp [sweepGo, hp, hlt]
        · have h' : qlookup (qremove q k0) k = some e := by
            rw [qlookup_qremove_ne q k0 k hk]; exact h
          have := ih (qremove q k0) hlen k e h' he
          constructor
          · simp only [sweepGo, hp, hlt, if_pos]
            exact this.1
          · simp only [sweepGo, hp, hlt, if_pos, List.mem_cons]
            exact Or.inr this.2
      · exfalso
        have h1 := peekMin_min q (k0, e0) hp (k, e) (qlookup_mem q k e h)
        have h2 : now ≤ e0 := not_lt.mp hlt
        have : now ≤ e := le_trans h2 h1
        exact absurd he (not_lt.mpr this)

theorem sweep_ops_all_empty (fuel : Nat) (now : Int) :
    ∀ (q : Queue) (op : Op), op ∈ (sweepGo fuel now q).2 →
      ∃ k, op = Op.empty k := by
  induction fuel with
  | zero => intro q op h; simp [sweepGo] at h
  | succ fuel ih =>
    intro q op h
    cases hp : peekMin q with
    | none => simp [sweepGo, hp] at h
    | some p =>
      obtain ⟨k0, e0⟩ := p
      by_cases hlt : e0 < now
      · simp only [sweepGo, hp, hlt, if_pos, List.mem_cons] at h
        rcases h with h | h
        · exact ⟨k0, h⟩
        · exact ih (qremove q k0) op h
      · simp [sweepGo, hp, hlt] at h

theorem sweep_ops_tracked (fuel : Nat) (now : Int) :
    ∀ (q : Queue) (k : Key), Op.empty k ∈ (sweepGo fuel now q).2 →
      (qlookup q k).isSome = true := by
  induction fuel with
  | zero => intro q k h; simp [sweepGo] at h
  | succ fuel ih =>
    intro q k h
    cases hp : peekMin q with
    | none => simp [sweepGo, hp] at h
    | some p =>
      obtain ⟨k0, e0⟩ := p
      by_cases hlt : e0 < now
      · simp only [sweepGo, hp, hlt, if_pos, List.mem_cons] at h
        rcases h with h | h
        · have hk : k = k0 := by injection h
          subst hk
          exact qlookup_isSome_of_mem q k e0 (peekMin_mem q (k, e0) hp)
        · have h1 := ih (qremove q k0) k h
          by_cases hk : k = k0
          · subst hk
            rw [qlookup_qremove_self q k] at h1
            simp at h1
          · rw [qlookup_qremove_ne q k0 k hk] at h1
            exact h1
      · simp [sweepGo, hp, hlt] at h

/-! ### Published-map lemmas -/

theorem applyOps_append (l1 l2 : List Op) :
    ∀ m : PubMap, applyOps m (l1 ++ l2) = applyOps (applyOps m l1) l2 := by
  induction l1 with
  | nil => intro m; simp [applyOps]
  | cons op rest ih => intro m; simp [applyOps, ih]

theorem lookupBag_removeKey_self (m : PubMap) (k : Key) :
    lookupBag (removeKey m k) k = none := by
  induction m with
  | nil => simp [removeKey, lookupBag]
  | cons hd tl ih =>
    obtain ⟨k', b⟩ := hd
    by_cases h : k' = k
    · simp [removeKey, h, ih]
    · simp [removeKey, h, lookupBag, ih]

theorem lookupBag_removeKey_ne (m : PubMap) (k k' : Key) (h : k' ≠ k) :
    lookupBag (removeKey m k) k' = lookupBag m k' := by
  induction m with
  | nil => simp [removeKey]
  | cons hd tl ih =>
    obtain ⟨k1, b⟩ := hd
    by_cases h1 : k1 = k
    · subst h1
      simp [removeKey, lookupBag, Ne.symm h, ih]
    · simp [removeKey, h1, lookupBag, ih]

theorem removeKey_of_none (m : PubMap) (k : Key)
    (h : lookupBag m k = none) : removeKey m k = m := by
  induction m with
  | nil => simp [removeKey]
  | cons hd tl ih =>
    obtain ⟨k', b⟩ := hd
    by_cases h1 : k' = k
    · simp [lookupBag, h1] at h
    · simp [lookupBag, h1] at h
      simp [removeKey, h1, ih h]

theorem lookupBag_bagAdd_of_none (m : PubMap) (k : Key) (v : StoredValue)
    (h : lookupBag m k = none) : lookupBag (bagAdd m k v) k = some [v] := by
  induction m with
  | nil => simp [bagAdd, lookupBag]
  | cons hd tl ih =>
    obtain ⟨k', b⟩ := hd
    by_cases h1 : k' = k
    · simp [lookupBag, h1] at h
    · simp [lookupBag, h1] at h
      simp [bagAdd, h1, lookupBag, ih h]

theorem lookupBag_bagAdd_of_some (m : PubMap) (k : Key) (v : StoredValue)
    (b : Bag) (h : lookupBag m k = some b) :
    lookupBag (bagAdd m k v) k = some (b ++ [v]) := by
  induction m with
  | nil => simp [lookupBag] at h
  | cons hd tl ih =>
    obtain ⟨k1, b1⟩ := hd
    by_cases h1 : k1 = k
    · simp [lookupBag, h1] at h
      simp [bagAdd, h1, lookupBag, h]
    · simp [lookupBag, h1] at h
      simp [bagAdd, h1, lookupBag, ih h]

theorem lookupBag_bagAdd_ne (m : PubMap) (k k' : Key) (v : StoredValue)
    (h : k' ≠ k) : lookupBag (bagAdd m k v) k' = lookupBag m k' := by
  induction m with
  | nil => simp [bagAdd, lookupBag, Ne.symm h]
  | cons hd tl ih =>
    obtain ⟨k1, b1⟩ := hd
    by_cases h1 : k1 = k
    · subst h1
      simp [bagAdd, lookupBag, Ne.symm h]
    · simp [bagAdd, h1, lookupBag, ih]

theorem applyOps_no_key (ops : List Op) (k : Key)
    (h : ∀ op ∈ ops, Op.key op ≠ k) :
    ∀ m : PubMap, lookupBag (applyOps m ops) k = lookupBag m k := by
  induction ops with
  | nil => intro m; simp [applyOps]
  | cons op rest ih =>
    intro m
    have hop : Op.key op ≠ k := h op (List.mem_cons_self op rest)
    have hrest : ∀ op' ∈ rest, Op.key op' ≠ k :=
      fun op' hm => h op' (List.mem_cons_of_mem op hm)
    rw [applyOps, ih hrest]
    cases op with
    | add k1 v => exact lookupBag_bagAdd_ne m k1 k v (fun hh => hop hh.symm)
    | empty k1 => exact lookupBag_removeKey_ne m k1 k (fun hh => hop hh.symm)

theorem applyOps_empties_preserve_none (ops : List Op) (k : Key)
    (h : ∀ op ∈ ops, ∃ k', op = Op.empty k') :
    ∀ m : PubMap, lookupBag m k = none → lookupBag (applyOps m ops) k = none := by
  induction ops with
  | nil => intro m hm; simpa [applyOps] using hm
  | cons op rest ih =>
    intro m hm
    obtain ⟨k', hk'⟩ := h op (List.mem_cons_self op rest)
    subst hk'
    rw [applyOps]
    refine ih (fun op' hmem => h op' (List.mem_cons_of_mem _ hmem)) _ ?_
    by_cases hk : k' = k
    · subst hk; exact lookupBag_removeKey_self m k'
    · rw [applyOp, lookupBag_removeKey_ne m k' k (fun hh => hk hh.symm)]
      exact hm

theorem applyOps_empties_mem (ops : List Op) (k : Key)
    (h : ∀ op ∈ ops, ∃ k', op = Op.empty k') (hmem : Op.empty k ∈ ops) :
    ∀ m : PubMap, lookupBag (applyOps m ops) k = none := by
  induction ops with
  | nil => simp at hmem
  | cons op rest ih =>
    intro m
    rcases List.mem_cons.mp hmem with h1 | h1
    · rw [applyOps, ← h1]
      exact applyOps_empties_preserve_none rest k
        (fun op' hm => h op' (List.mem_cons_of_mem _ hm)) _
        (lookupBag_removeKey_self m k)
    · exact ih (fun op' hm => h op' (List.mem_cons_of_mem _ hm)) h1 _

/-! ### C8: untracked removals are tolerated as no-ops -/

/-- C8: draining an `Empty` for a key that is not tracked in the expiration
index leaves the index unchanged and the drain continues with the remaining
operations; likewise, applying an `Empty` for a key absent from the map is a
no-op. All model operations are total — no failure path exists. -/
theorem untracked_removal_noop (q : Queue) (k : Key) (rest : List Op)
    (m : PubMap) (hq : qlookup q k = none) (hm : lookupBag m k = none) :
    drain q (Op.empty k :: rest) = drain q rest ∧
      applyOp m (Op.empty k) = m := by
  constructor
  · simp [drain, drainOp, hq]
  · exact removeKey_of_none m k hm

/-- Witness for C8 at a concrete untracked key. -/
theorem untracked_removal_noop_witness :
    qlookup [("a", 3)] "b" = none ∧ lookupBag [("a", [⟨"1", none⟩])] "b" = none ∧
      (drain [("a", 3)] (Op.empty "b" :: [Op.add "c" ⟨"2", none⟩])
          = drain [("a", 3)] [Op.add "c" ⟨"2", none⟩] ∧
        applyOp [("a", [⟨"1", none⟩])] (Op.empty "b") = [("a", [⟨"1", none⟩])]) :=
  ⟨by decide, by decide,
    untracked_removal_noop [("a", 3)] "b" [Op.add "c" ⟨"2", none⟩]
      [("a", [⟨"1", none⟩])] (by decide) (by decide)⟩

/-! ### C2: the sweep's eviction boundary

The spec says the sweep evicts every entry whose expiry is **at or before**
the current time. The code's condition is `Utc::now() > *next_ttl.unwrap().1`
— strictly greater — so an entry whose expiry equals the current instant is
NOT evicted. The claim is corrected to a strict boundary. -/

/-- C2 counterexample: a queue entry with expiry exactly equal to the sweep's
current time (5) survives the cycle, and its key is still live — the code
does not evict at-the-instant entries, contradicting "at or before". -/
theorem sweep_at_now_not_evicted :
    qlookup (cycle 5 ⟨[("k", [⟨"\"v\"", some 5⟩])], [], [("k", 5)]⟩).queue "k"
        = some 5 ∧
      containsKey
        (cycle 5 ⟨[("k", [⟨"\"v\"", some 5⟩])], [], [("k", 5)]⟩).published "k"
        = true := by
  constructor
  · rfl
  · rfl

/-- C2 (amended): after draining, the sweep evicts exactly the entries whose
expiry is strictly before the current time: every index entry surviving a
cycle has expiry at or after `now`, and every drained entry with expiry
strictly before `now` is evicted from both the index and the map. -/
theorem sweep_strict_boundary (s : SysState) (now : Int) :
    (∀ (k : Key) (e : Int), qlookup (cycle now s).queue k = some e → now ≤ e) ∧
      (∀ (k : Key) (e : Int), qlookup (drain s.queue s.oplog) k = some e →
        e < now →
        qlookup (cycle now s).queue k = none ∧
          lookupBag (cycle now s).published k = none) := by
  constructor
  · intro k e h
    exact sweep_ge (drain s.queue s.oplog).length now (drain s.queue s.oplog)
      le_rfl k e h
  · intro k e h he
    have hev := sweep_evict (drain s.queue s.oplog).length now
      (drain s.queue s.oplog) le_rfl k e h he
    refine ⟨hev.1, ?_⟩
    show lookupBag (applyOps s.published (s.oplog ++ _)) k = none
    rw [applyOps_append]
    exact applyOps_empties_mem _ k
      (fun op hm => sweep_ops_all_empty _ now _ op hm) hev.2 _

/-! ### Drain lemmas -/

theorem drain_append (l1 l2 : List Op) :
    ∀ q : Queue, drain q (l1 ++ l2) = drain (drain q l1) l2 := by
  induction l1 with
  | nil => intro q; simp [drain]
  | cons op rest ih => intro q; simp [drain, ih]

theorem qlookup_drainOp_ne (q : Queue) (op : Op) (k : Key)
    (h : Op.key op ≠ k) : qlookup (drainOp q op) k = qlookup q k := by
  cases op with
  | add k1 v =>
    have hk : k ≠ k1 := fun hh => h hh.symm
    cases hv : v.ttl with
    | none => simp [drainOp, hv]
    | some e => simp [drainOp, hv, qlookup_qpush_ne q k1 k e hk]
  | empty k1 =>
    have hk : k ≠ k1 := fun hh => h hh.symm
    by_cases hq : (qlookup q k1).isSome
    · simp [drainOp, hq, qlookup_qremove_ne q k1 k hk]
    · simp [drainOp, hq]

theorem drain_no_key (ops : List Op) (k : Key)
    (h : ∀ op ∈ ops, Op.key op ≠ k) :
    ∀ q : Queue, qlookup (drain q ops) k = qlookup q k := by
  induction ops with
  | nil => intro q; simp [drain]
  | cons op rest ih =>
    intro q
    rw [drain, ih (fun op' hm => h op' (List.mem_cons_of_mem _ hm))]
    exact qlookup_drainOp_ne q op k (h op (List.mem_cons_self op rest))

theorem drain_null_adds (ops : List Op) (k : Key)
    (h : ∀ v : StoredValue, Op.add k v ∈ ops → v.ttl = none) :
    ∀ q : Queue, qlookup q k = none → qlookup (drain q ops) k = none := by
  induction ops with
  | nil => intro q hq; simpa [drain] using hq
  | cons op rest ih =>
    intro q hq
    rw [drain]
    refine ih (fun v hm => h v (List.mem_cons_of_mem _ hm)) _ ?_
    cases op with
    | add k1 v =>
      by_cases hk : k1 = k
      · subst hk
        have := h v (List.mem_cons_self _ _)
        simp [drainOp, this, hq]
      · cases hv : v.ttl with
        | none => simpa [drainOp, hv] using hq
        | some e =>
          rw [drainOp, hv]
          rw [qlookup_qpush_ne q k1 k e (fun hh => hk hh.symm)]
          exact hq
    | empty k1 =>
      by_cases hq1 : (qlookup q k1).isSome
      · simp only [drainOp, hq1, if_pos]
        exact qlookup_qremove_none q k k1 hq
      · simpa [drainOp, hq1] using hq

theorem drain_only_add (ops : List Op) (k : Key) (v : StoredValue) (e : Int)
    (hmem : Op.add k v ∈ ops)
    (honly : ∀ op ∈ ops, Op.key op = k → op = Op.add k v)
    (hv : v.ttl = some e) :
    ∀ q : Queue, qlookup (drain q ops) k = some e := by
  induction ops with
  | nil => simp at hmem
  | cons op rest ih =>
    intro q
    rw [drain]
    by_cases hmem' : Op.add k v ∈ rest
    · exact ih hmem' (fun op' hm hk => honly op' (List.mem_cons_of_mem _ hm) hk) _
    · have hop : op = Op.add k v := by
        rcases List.mem_cons.mp hmem with h1 | h1
        · exact h1.symm
        · exact absurd h1 hmem'
      subst hop
      have hrest : ∀ op' ∈ rest, Op.key op' ≠ k := by
        intro op' hm hk
        have := honly op' (List.mem_cons_of_mem _ hm) hk
        exact hmem' (this ▸ hm)
      rw [drain_no_key rest k hrest]
      simp [drainOp, hv, qlookup_qpush_self]

/-! ### C4: insert with no TTL, then publish, then get -/

/-- C4: for a key absent from the whole write side (no published value, no
staged operation, not indexed), a successful `insert(k, v, None)` followed by
a reclamation cycle (which publishes it) makes `get(k)` return the
JSON-quoted serialization of `v`. -/
theorem insert_then_get (s : SysState) (k : Key) (v : Json) (now now2 : Int)
    (h1 : lookupBag s.published k = none)
    (h2 : ∀ op ∈ s.oplog, Op.key op ≠ k)
    (h3 : qlookup s.queue k = none) :
    (Store.insert s k v none now).1 = .ok () ∧
      Store.get (cycle now2 (Store.insert s k v none now).2).published k
        = .ok (some (Json.str (Json.serialize v))) := by
  have hc : containsKey s.published k = false := by
    simp [containsKey, h1]
  have hs1 : Store.insert s k v none now
      = (.ok (), { s with
          oplog := s.oplog ++ [Op.add k ⟨Json.serialize v, none⟩] }) := by
    simp [Store.insert, hc]
  refine ⟨by rw [hs1], ?_⟩
  rw [hs1]
  set val : StoredValue := ⟨Json.serialize v, none⟩ with hval
  set ops : List Op := s.oplog ++ [Op.add k val] with hops
  set q1 : Queue := drain s.queue ops with hq1
  have hq1k : qlookup q1 k = none := by
    refine drain_null_adds ops k ?_ s.queue h3
    intro w hm
    rcases List.mem_append.mp hm with hm | hm
    · exact absurd rfl (h2 _ hm)
    · simp at hm
      rw [hm, hval]
  have hev : ∀ op ∈ (sweepGo q1.length now2 q1).2, Op.key op ≠ k := by
    intro op hm hk
    obtain ⟨k1, hk1⟩ := sweep_ops_all_empty q1.length now2 q1 op hm
    subst hk1
    have : k1 = k := hk
    subst this
    have := sweep_ops_tracked q1.length now2 q1 k1 hm
    rw [hq1k] at this
    simp at this
  have hfin : lookupBag
      (applyOps s.published (ops ++ (sweepGo q1.length now2 q1).2)) k
      = some [val] := by
    rw [applyOps_append, applyOps_no_key _ k hev, hops, applyOps_append]
    have hmid : lookupBag (applyOps s.published s.oplog) k = none := by
      rw [applyOps_no_key s.oplog k h2]
      exact h1
    show lookupBag (bagAdd (applyOps s.published s.oplog) k val) k = some [val]
    exact lookupBag_bagAdd_of_none _ k val hmid
  show Store.get (applyOps s.published (ops ++ (sweepGo q1.length now2 q1).2)) k
      = .ok (some (Json.str (Json.serialize v)))
  simp [Store.get, hfin, hval]

/-- Witness for C4: the spec's scenario, from the initialized store. -/
theorem insert_then_get_witness :
    lookupBag initState.published "key" = none ∧
      (Store.insert initState "key" (.str "value") none 0).1 = .ok () ∧
      Store.get (cycle 1 (Store.insert initState "key" (.str "value") none 0).2).published "key"
        = .ok (some (Json.str "\"value\"")) := by
  refine ⟨by decide, ?_⟩
  have := insert_then_get initState "key" (.str "value") 0 1 (by decide)
    (by intro op hm; simp [initState] at hm) (by decide)
  exact this

/-! ### C10: zero and negative TTLs are accepted and expire at once -/

/-- C10: `insert` accepts any integral `ttl_millis`, including zero and
negative values; the computed expiry `now + ttl` lies at or before the
insertion instant when `ttl ≤ 0`, and the key is evicted (from the index and
the map) by the first sweep whose clock lies past the expiry. -/
theorem nonpositive_ttl_expires (s : SysState) (k : Key) (v : Json)
    (ttl now t : Int)
    (h1 : lookupBag s.published k = none)
    (h2 : ∀ op ∈ s.oplog, Op.key op ≠ k)
    (h3 : qlookup s.queue k = none)
    (httl : ttl ≤ 0) (ht : now + ttl < t) :
    (Store.insert s k v (some ttl) now).1 = .ok () ∧
      now + ttl ≤ now ∧
      qlookup (cycle t (Store.insert s k v (some ttl) now).2).queue k = none ∧
      lookupBag (cycle t (Store.insert s k v (some ttl) now).2).published k
        = none := by
  have hc : containsKey s.published k = false := by
    simp [containsKey, h1]
  have hs1 : Store.insert s k v (some ttl) now
      = (.ok (), { s with
          oplog := s.oplog ++ [Op.add k ⟨Json.serialize v, some (now + ttl)⟩] }) := by
    simp [Store.insert, hc]
  refine ⟨by rw [hs1], by omega, ?_⟩
  rw [hs1]
  set val : StoredValue := ⟨Json.serialize v, some (now + ttl)⟩ with hval
  set ops : List Op := s.oplog ++ [Op.add k val] with hops
  set q1 : Queue := drain s.queue ops with hq1
  have hq1k : qlookup q1 k = some (now + ttl) := by
    refine drain_only_add ops k val (now + ttl) ?_ ?_ rfl s.queue
    · exact List.mem_append.mpr (Or.inr (List.mem_singleton.mpr rfl))
    · intro op hm hk
      rcases List.mem_append.mp hm with hm | hm
      · exact absurd hk (h2 _ hm)
      · simpa using hm
  have hev := sweep_evict q1.length t q1 le_rfl k (now + ttl) hq1k ht
  refine ⟨hev.1, ?_⟩
  show lookupBag (applyOps s.published (ops ++ (sweepGo q1.length t q1).2)) k
      = none
  rw [applyOps_append]
  exact applyOps_empties_mem _ k
    (fun op hm => sweep_ops_all_empty _ t _ op hm) hev.2 _

/-- Witness for C10 with a negative TTL from the initialized store. -/
theorem nonpositive_ttl_expires_witness :
    lookupBag initState.published "k" = none ∧ (-7 : Int) ≤ 0 ∧ (0 : Int) + -7 < 1 ∧
      ((Store.insert initState "k" (.str "v") (some (-7)) 0).1 = .ok () ∧
        (0 : Int) + -7 ≤ 0 ∧
        qlookup (cycle 1 (Store.insert initState "k" (.str "v") (some (-7)) 0).2).queue "k" = none ∧
        lookupBag (cycle 1 (Store.insert initState "k" (.str "v") (some (-7)) 0).2).published "k" = none) :=
  ⟨by decide, by decide, by decide,
    nonpositive_ttl_expires initState "k" (.str "v") (-7) 0 1 (by decide)
      (by intro op hm; simp [initState] at hm) (by decide) (by decide) (by decide)⟩

/-! ### C6: cycle phase ordering -/

/-- C6: each reclamation cycle drains the staged operations in order, then
sweeps, then publishes. Consequences proved: the drain processes adds and
removals in the order they occurred (an add then a removal of the same key
leaves it untracked, the reverse order leaves it tracked); an add staged with
an already-past expiry is drained, swept and its eviction published all
within the same cycle; and the cycle ends with an empty pending log. -/
theorem cycle_phase_order (s : SysState) (now : Int) (k : Key) (d : String)
    (e : Int) (hmem : Op.add k ⟨d, some e⟩ ∈ s.oplog)
    (honly : ∀ op ∈ s.oplog, Op.key op = k → op = Op.add k ⟨d, some e⟩)
    (he : e < now) :
    (cycle now s).oplog = [] ∧
      qlookup (cycle now s).queue k = none ∧
      lookupBag (cycle now s).published k = none ∧
      (∀ (q : Queue) (k2 : Key) (d1 : String) (e1 : Int),
        qlookup (drain q [Op.add k2 ⟨d1, some e1⟩, Op.empty k2]) k2 = none ∧
          qlookup (drain q [Op.empty k2, Op.add k2 ⟨d1, some e1⟩]) k2
            = some e1) := by
  set q1 : Queue := drain s.queue s.oplog with hq1
  have hq1k : qlookup q1 k = some e :=
    drain_only_add s.oplog k ⟨d, some e⟩ e hmem honly rfl s.queue
  have hev := sweep_evict q1.length now q1 le_rfl k e hq1k he
  refine ⟨rfl, hev.1, ?_, ?_⟩
  · show lookupBag (applyOps s.published (s.oplog ++ (sweepGo q1.length now q1).2)) k
        = none
    rw [applyOps_append]
    exact applyOps_empties_mem _ k
      (fun op hm => sweep_ops_all_empty _ now _ op hm) hev.2 _
  · intro q k2 d1 e1
    constructor
    · show qlookup (drainOp (drainOp q (Op.add k2 ⟨d1, some e1⟩)) (Op.empty k2)) k2
          = none
      have hp : (qlookup (qpush q k2 e1) k2).isSome = true := by
        simp [qlookup_qpush_self]
      simp [drainOp, hp, qlookup_qremove_self]
    · show qlookup (drainOp (drainOp q (Op.empty k2)) (Op.add k2 ⟨d1, some e1⟩)) k2
          = some e1
      simp [drainOp, qlookup_qpush_self]

/-- Witness for C6 at a concrete staged add with a past expiry. -/
theorem cycle_phase_order_witness :
    Op.add "k" ⟨"\"v\"", some 2⟩ ∈ (⟨[], [Op.add "k" ⟨"\"v\"", some 2⟩], []⟩ : SysState).oplog ∧
      (2 : Int) < 9 ∧
      ((cycle 9 ⟨[], [Op.add "k" ⟨"\"v\"", some 2⟩], []⟩).oplog = [] ∧
        qlookup (cycle 9 ⟨[], [Op.add "k" ⟨"\"v\"", some 2⟩], []⟩).queue "k" = none ∧
        lookupBag (cycle 9 ⟨[], [Op.add "k" ⟨"\"v\"", some 2⟩], []⟩).published "k" = none ∧
        (∀ (q : Queue) (k2 : Key) (d1 : String) (e1 : Int),
          qlookup (drain q [Op.add k2 ⟨d1, some e1⟩, Op.empty k2]) k2 = none ∧
            qlookup (drain q [Op.empty k2, Op.add k2 ⟨d1, some e1⟩]) k2 = some e1)) :=
  ⟨by decide, by decide,
    cycle_phase_order ⟨[], [Op.add "k" ⟨"\"v\"", some 2⟩], []⟩ 9 "k" "\"v\"" 2
      (by decide)
      (by
        intro op hm hk
        simp at hm
        rw [hm])
      (by decide)⟩

/-! ### C7: keys without TTL are never evicted -/

/-- Helper: an action other than `delete k` preserves the facts that `k`
holds the published bag `b`, is untracked in the index, and has no staged
operation. -/
theorem quiet_preserved (s : SysState) (k : Key) (b : Bag) (a : Act)
    (hpub : lookupBag s.published k = some b)
    (hq : qlookup s.queue k = none)
    (hop : ∀ op ∈ s.oplog, Op.key op ≠ k)
    (ha : a ≠ Act.del k) :
    lookupBag (applyAct s a).published k = some b ∧
      qlookup (applyAct s a).queue k = none ∧
      ∀ op ∈ (applyAct s a).oplog, Op.key op ≠ k := by
  cases a with
  | ins k1 v1 ttl1 now1 =>
    by_cases hc : containsKey s.published k1
    · have hact : applyAct s (Act.ins k1 v1 ttl1 now1) = s := by
        simp [applyAct, Store.insert, hc]
      rw [hact]
      exact ⟨hpub, hq, hop⟩
    · have hk1 : k1 ≠ k := by
        intro hh
        subst hh
        simp [containsKey, hpub] at hc
      have hact : applyAct s (Act.ins k1 v1 ttl1 now1)
          = { s with oplog := s.oplog
                ++ [Op.add k1 ⟨Json.serialize v1, ttl1.map (fun t => now1 + t)⟩] } := by
        simp [applyAct, Store.insert, hc]
      rw [hact]
      refine ⟨hpub, hq, ?_⟩
      intro op hm
      rcases List.mem_append.mp hm with hm | hm
      · exact hop op hm
      · simp at hm
        rw [hm]
        exact hk1
  | del k1 =>
    have hk1 : k1 ≠ k := fun hh => ha (by rw [hh])
    by_cases hc : containsKey s.published k1
    · have hact : applyAct s (Act.del k1)
          = { s with oplog := s.oplog ++ [Op.empty k1] } := by
        simp [applyAct, Store.delete, hc]
      rw [hact]
      refine ⟨hpub, hq, ?_⟩
      intro op hm
      rcases List.mem_append.mp hm with hm | hm
      · exact hop op hm
      · simp at hm
        rw [hm]
        exact hk1
    · have hact : applyAct s (Act.del k1) = s := by
        simp [applyAct, Store.delete, hc]
      rw [hact]
      exact ⟨hpub, hq, hop⟩
  | cyc now =>
    have hq1 : qlookup (drain s.queue s.oplog) k = none := by
      rw [drain_no_key s.oplog k hop]
      exact hq
    have hev : ∀ op ∈ (sweepGo (drain s.queue s.oplog).length now
        (drain s.queue s.oplog)).2, Op.key op ≠ k := by
      intro op hm hk
      obtain ⟨k1, hk1⟩ := sweep_ops_all_empty _ now _ op hm
      subst hk1
      have heq : k1 = k := hk
      subst heq
      have := sweep_ops_tracked _ now _ k1 hm
      rw [hq1] at this
      simp at this
    refine ⟨?_, ?_, ?_⟩
    · show lookupBag (applyOps s.published (s.oplog
          ++ (sweepGo (drain s.queue s.oplog).length now (drain s.queue s.oplog)).2)) k
          = some b
      rw [applyOps_no_key _ k ?_]
      · exact hpub
      · intro op hm
        rcases List.mem_append.mp hm with hm | hm
        · exact hop op hm
        · exact hev op hm
    · show qlookup (sweepGo (drain s.queue s.oplog).length now
          (drain s.queue s.oplog)).1 k = none
      exact sweep_none _ now _ k hq1
    · intro op hm
      simp [applyAct, cycle] at hm

/-- Helper: a key with a published bag, untracked by the index and with no
staged operation, keeps its bag along any action sequence avoiding an
explicit `delete` of it. -/
theorem quiet_run_preserved (s : SysState) (k : Key) (b : Bag)
    (tr : List Act)
    (hpub : lookupBag s.published k = some b)
    (hq : qlookup s.queue k = none)
    (hop : ∀ op ∈ s.oplog, Op.key op ≠ k)
    (hdel : ∀ a ∈ tr, a ≠ Act.del k) :
    lookupBag (run s tr).published k = some b := by
  induction tr generalizing s with
  | nil => simpa [run] using hpub
  | cons a rest ih =>
    have h1 := quiet_preserved s k b a hpub hq hop
      (hdel a (List.mem_cons_self a rest))
    exact ih (applyAct s a) h1.1 h1.2.1 h1.2.2
      (fun a' hm => hdel a' (List.mem_cons_of_mem _ hm))

/-! ### C3: the map/index invariant -/

theorem hasLive_bagAdd_self (m : PubMap) (k : Key) (v : StoredValue) :
    hasLiveTtlB (bagAdd m k v) k = (hasLiveTtlB m k || v.ttl.isSome) := by
  cases hm : lookupBag m k with
  | none => simp [hasLiveTtlB, lookupBag_bagAdd_of_none m k v hm, hm]
  | some b =>
    simp [hasLiveTtlB, lookupBag_bagAdd_of_some m k v b hm, hm, List.any_append]

theorem hasLive_bagAdd_ne (m : PubMap) (k k' : Key) (v : StoredValue)
    (h : k' ≠ k) : hasLiveTtlB (bagAdd m k v) k' = hasLiveTtlB m k' := by
  simp [hasLiveTtlB, lookupBag_bagAdd_ne m k k' v h]

theorem hasLive_removeKey_self (m : PubMap) (k : Key) :
    hasLiveTtlB (removeKey m k) k = false := by
  simp [hasLiveTtlB, lookupBag_removeKey_self]

theorem hasLive_removeKey_ne (m : PubMap) (k k' : Key) (h : k' ≠ k) :
    hasLiveTtlB (removeKey m k) k' = hasLiveTtlB m k' := by
  simp [hasLiveTtlB, lookupBag_removeKey_ne m k k' h]

theorem invP_empty (m : PubMap) (q : Queue) (k : Key) (h : InvP m q) :
    InvP (removeKey m k) (qremove q k) := by
  intro k'
  by_cases hk : k' = k
  · subst hk
    rw [qlookup_qremove_self, hasLive_removeKey_self]
    rfl
  · rw [qlookup_qremove_ne q k k' hk, hasLive_removeKey_ne m k k' hk]
    exact h k'

theorem invP_drainOp (m : PubMap) (q : Queue) (op : Op) (h : InvP m q) :
    InvP (applyOp m op) (drainOp q op) := by
  cases op with
  | add k v =>
    obtain ⟨d, ttl⟩ := v
    cases ttl with
    | some e =>
      intro k'
      by_cases hk : k' = k
      · subst hk
        show (qlookup (qpush q k' e) k').isSome
            = hasLiveTtlB (bagAdd m k' ⟨d, some e⟩) k'
        rw [qlookup_qpush_self, hasLive_bagAdd_self]
        simp
      · show (qlookup (qpush q k e) k').isSome
            = hasLiveTtlB (bagAdd m k ⟨d, some e⟩) k'
        rw [qlookup_qpush_ne q k k' e hk, hasLive_bagAdd_ne m k k' _ hk]
        exact h k'
    | none =>
      intro k'
      by_cases hk : k' = k
      · subst hk
        show (qlookup q k').isSome = hasLiveTtlB (bagAdd m k' ⟨d, none⟩) k'
        rw [hasLive_bagAdd_self]
        simp [h k']
      · show (qlookup q k').isSome = hasLiveTtlB (bagAdd m k ⟨d, none⟩) k'
        rw [hasLive_bagAdd_ne m k k' _ hk]
        exact h k'
  | empty k =>
    by_cases hq : (qlookup q k).isSome
    · have h1 : drainOp q (Op.empty k) = qremove q k := by simp [drainOp, hq]
      show InvP (removeKey m k) (drainOp q (Op.empty k))
      rw [h1]
      exact invP_empty m q k h
    · have hnone : qlookup q k = none := by
        cases hqq : qlookup q k
        · rfl
        · rw [hqq] at hq
          simp at hq
      have h1 : drainOp q (Op.empty k) = q := by simp [drainOp, hq]
      intro k'
      show (qlookup (drainOp q (Op.empty k)) k').isSome
          = hasLiveTtlB (removeKey m k) k'
      rw [h1]
      by_cases hk : k' = k
      · subst hk
        rw [hasLive_removeKey_self, hnone]
        rfl
      · rw [hasLive_removeKey_ne m k k' hk]
        exact h k'

theorem invP_drain (ops : List Op) :
    ∀ (m : PubMap) (q : Queue), InvP m q →
      InvP (applyOps m ops) (drain q ops) := by
  induction ops with
  | nil => intro m q h; exact h
  | cons op rest ih =>
    intro m q h
    show InvP (applyOps (applyOp m op) rest) (drain (drainOp q op) rest)
    exact ih _ _ (invP_drainOp m q op h)

theorem invP_sweep (fuel : Nat) (now : Int) :
    ∀ (m : PubMap) (q : Queue), InvP m q →
      InvP (applyOps m (sweepGo fuel now q).2) (sweepGo fuel now q).1 := by
  induction fuel with
  | zero => intro m q h; exact h
  | succ fuel ih =>
    intro m q h
    cases hp : peekMin q with
    | none =>
      have h2 : sweepGo (fuel + 1) now q = (q, []) := by simp [sweepGo, hp]
      rw [h2]
      exact h
    | some p =>
      obtain ⟨k0, e0⟩ := p
      by_cases hlt : e0 < now
      · have h2 : sweepGo (fuel + 1) now q
            = ((sweepGo fuel now (qremove q k0)).1,
              Op.empty k0 :: (sweepGo fuel now (qremove q k0)).2) := by
          simp [sweepGo, hp, hlt]
        rw [h2]
        show InvP (applyOps (applyOp m (Op.empty k0))
            (sweepGo fuel now (qremove q k0)).2) (sweepGo fuel now (qremove q k0)).1
        exact ih _ _ (invP_empty m q k0 h)
      · have h2 : sweepGo (fuel + 1) now q = (q, []) := by simp [sweepGo, hp, hlt]
        rw [h2]
        exact h

theorem insert_views (s : SysState) (k : Key) (v : Json) (ttl : Option Int)
    (now : Int) :
    (Store.insert s k v ttl now).2.published = s.published ∧
      (Store.insert s k v ttl now).2.queue = s.queue := by
  by_cases hc : containsKey s.published k <;> simp [Store.insert, hc]

theorem delete_views (s : SysState) (k : Key) :
    (Store.delete s k).2.published = s.published ∧
      (Store.delete s k).2.queue = s.queue := by
  by_cases hc : containsKey s.published k <;> simp [Store.delete, hc]

/-- Helper: the map/index consistency relation holds in every reachable
state. -/
theorem inv_reachable (s : SysState) (h : Reachable s) :
    InvP s.published s.queue := by
  induction h with
  | init => intro k; rfl
  | @step s' a hr ih =>
    cases a with
    | ins k1 v1 ttl1 now1 =>
      intro k
      have hv := insert_views s' k1 v1 ttl1 now1
      show (qlookup (Store.insert s' k1 v1 ttl1 now1).2.queue k).isSome
          = hasLiveTtlB (Store.insert s' k1 v1 ttl1 now1).2.published k
      rw [hv.1, hv.2]
      exact ih k
    | del k1 =>
      intro k
      have hv := delete_views s' k1
      show (qlookup (Store.delete s' k1).2.queue k).isSome
          = hasLiveTtlB (Store.delete s' k1).2.published k
      rw [hv.1, hv.2]
      exact ih k
    | cyc now =>
      have h1 : InvP (applyOps s'.published s'.oplog) (drain s'.queue s'.oplog) :=
        invP_drain s'.oplog s'.published s'.queue ih
      have h2 := invP_sweep (drain s'.queue s'.oplog).length now _ _ h1
      intro k
      show (qlookup (sweepGo (drain s'.queue s'.oplog).length now
          (drain s'.queue s'.oplog)).1 k).isSome
          = hasLiveTtlB (applyOps s'.published (s'.oplog
            ++ (sweepGo (drain s'.queue s'.oplog).length now
              (drain s'.queue s'.oplog)).2)) k
      rw [applyOps_append]
      exact h2 k

/-- C3: in every reachable state (between reclamation cycles — the model's
states are exactly the states outside a cycle's critical section), a key is
tracked by the Expiration Index if and only if it currently holds a live
value with a non-null TTL not yet processed for eviction; moreover the drain
never indexes a key whose staged adds all carry a null TTL, so a key inserted
with `ttl = None` is never added to the index by any operation. -/
theorem index_invariant (s : SysState) (h : Reachable s) :
    (∀ k, (qlookup s.queue k).isSome = hasLiveTtlB s.published k) ∧
      (∀ (q : Queue) (ops : List Op) (k : Key), qlookup q k = none →
        (∀ v : StoredValue, Op.add k v ∈ ops → v.ttl = none) →
        qlookup (drain q ops) k = none) := by
  constructor
  · exact inv_reachable s h
  · intro q ops k hq hnull
    exact drain_null_adds ops k hnull q hq

/-- Witness for C3 at the (reachable) initial state. -/
theorem index_invariant_witness :
    Reachable initState ∧
      ((∀ k, (qlookup initState.queue k).isSome
          = hasLiveTtlB initState.published k) ∧
        (∀ (q : Queue) (ops : List Op) (k : Key), qlookup q k = none →
          (∀ v : StoredValue, Op.add k v ∈ ops → v.ttl = none) →
          qlookup (drain q ops) k = none)) :=
  ⟨Reachable.init, index_invariant initState Reachable.init⟩

/-! ### C7, corrected: null-TTL persistence

The claim as stated is false: `insert` consults `contains_key` on the
published view only, so a second, TTL-carrying insert of the same key staged
before the null-TTL insert is published succeeds and joins the same bag; the
drain then indexes the key and the sweep's `empty(k)` evicts the whole bag,
null-TTL value included, with no delete ever issued. -/

/-- C7 counterexample: "k" is inserted with a null TTL (successfully), a
second insert with a 10ms TTL is staged before publication and also
succeeds, no `delete("k")` ever happens; after the first cycle the key is
live with both values, and the next cycle's sweep (clock past the expiry)
evicts it — the null-TTL insert became absent due to expiration. -/
theorem null_ttl_key_evicted :
    (∀ a ∈ [Act.ins "k" (Json.str "a") none 0,
        Act.ins "k" (Json.str "b") (some 10) 0, Act.cyc 5, Act.cyc 100],
      a ≠ Act.del "k") ∧
      (Store.insert initState "k" (Json.str "a") none 0).1 = .ok () ∧
      lookupBag (run initState [Act.ins "k" (Json.str "a") none 0,
          Act.ins "k" (Json.str "b") (some 10) 0, Act.cyc 5]).published "k"
        = some [⟨"\"a\"", none⟩, ⟨"\"b\"", some 10⟩] ∧
      lookupBag (run initState [Act.ins "k" (Json.str "a") none 0,
          Act.ins "k" (Json.str "b") (some 10) 0, Act.cyc 5,
            Act.cyc 100]).published "k" = none :=
  ⟨by decide, rfl, rfl, rfl⟩

/-- C7 (amended): a key all of whose live values carry a null TTL and which
has no staged operation pending never becomes absent due to expiration: from
any reachable such state, along any action sequence avoiding an explicit
`delete` of that key — inserts, deletes of other keys and reclamation cycles
at arbitrary clocks — its published bag is preserved. (The no-staged-op
condition is what the counterexample forces: a TTL-carrying insert of the
same key staged before publication makes the sweep evict the whole bag.) -/
theorem no_ttl_never_expires (s : SysState) (k : Key) (b : Bag)
    (tr : List Act) (hreach : Reachable s)
    (hpub : lookupBag s.published k = some b)
    (hnull : ∀ v ∈ b, v.ttl = none)
    (hop : ∀ op ∈ s.oplog, Op.key op ≠ k)
    (hdel : ∀ a ∈ tr, a ≠ Act.del k) :
    lookupBag (run s tr).published k = some b := by
  have hlive : hasLiveTtlB s.published k = false := by
    simp only [hasLiveTtlB, hpub]
    rw [List.any_eq_false]
    intro v hv
    simp [hnull v hv]
  have hq : qlookup s.queue k = none := by
    have h1 := inv_reachable s hreach k
    rw [hlive] at h1
    cases hqq : qlookup s.queue k with
    | none => rfl
    | some e => rw [hqq] at h1; simp at h1
  exact quiet_run_preserved s k b tr hpub hq hop hdel

/-- Witness for C7 (amended): a reachable state holding a null-TTL key
survives cycles at arbitrary later clocks, interleaved with a TTL-carrying
insert of another key. -/
theorem no_ttl_never_expires_witness :
    Reachable (⟨[("k", [⟨"\"v\"", none⟩])], [], []⟩ : SysState) ∧
      lookupBag (⟨[("k", [⟨"\"v\"", none⟩])], [], []⟩ : SysState).published "k"
        = some [⟨"\"v\"", none⟩] ∧
      (∀ v ∈ [(⟨"\"v\"", none⟩ : StoredValue)], v.ttl = none) ∧
      (∀ a ∈ [Act.cyc 100, Act.ins "other" (.str "x") (some 1) 150,
          Act.cyc 200, Act.cyc 300], a ≠ Act.del "k") ∧
      lookupBag (run ⟨[("k", [⟨"\"v\"", none⟩])], [], []⟩
          [Act.cyc 100, Act.ins "other" (.str "x") (some 1) 150, Act.cyc 200,
            Act.cyc 300]).published "k" = some [⟨"\"v\"", none⟩] :=
  ⟨Reachable.step (Act.cyc 0)
      (Reachable.step (Act.ins "k" (Json.str "v") none 0) Reachable.init),
    by decide, by decide, by decide,
    no_ttl_never_expires ⟨[("k", [⟨"\"v\"", none⟩])], [], []⟩ "k"
      [⟨"\"v\"", none⟩]
      [Act.cyc 100, Act.ins "other" (.str "x") (some 1) 150, Act.cyc 200,
        Act.cyc 300]
      (Reachable.step (Act.cyc 0)
        (Reachable.step (Act.ins "k" (Json.str "v") none 0) Reachable.init))
      (by decide) (by decide) (by intro op hm; simp at hm) (by decide)⟩

/-! ### C10, corrected: the chrono range bound on accepted TTLs

The claim asserts `insert` accepts any signed 64-bit `ttl_millis` without
error, but the expiry computation `Utc::now() + Duration::milliseconds(ttl)`
(lib.rs line 45) panics when the sum leaves chrono's representable
`DateTime` range, so extreme values such as `i64::MAX` abort instead of
being accepted. -/

/-- C10 counterexample: at the epoch clock (a representable instant), an
insert with `ttl_millis = i64::MAX` drives `now + ttl` outside chrono's
`DateTime` range, so the expiry computation panics (modelled as `none`)
instead of the insert succeeding: `insert` does not accept every signed
64-bit TTL without error. -/
theorem i64_max_ttl_overflow :
    chronoMinMs ≤ 0 ∧ (0 : Int) ≤ chronoMaxMs ∧
      Store.insertChecked initState "k" (Json.str "v")
        (some 9223372036854775807) 0 = none :=
  ⟨by decide, by decide, rfl⟩

/-- C10 (amended): `insert` accepts without error every `ttl_millis` —
positive, zero or negative — whose computed absolute expiry `now + ttl`
stays inside chrono's representable range (outside it the expiry computation
panics before the key is examined); the expiry equals current time plus
`ttl_millis`, lies at or before the insertion instant when `ttl_millis ≤ 0`,
and the key is then evicted from the index and the map by the first sweep
whose clock lies past the expiry. -/
theorem insert_ttl_range_spec (s : SysState) (k : Key) (v : Json)
    (ttl now t : Int)
    (h1 : lookupBag s.published k = none)
    (h2 : ∀ op ∈ s.oplog, Op.key op ≠ k)
    (h3 : qlookup s.queue k = none)
    (hrange : chronoMinMs ≤ now + ttl ∧ now + ttl ≤ chronoMaxMs) :
    Store.insertChecked s k v (some ttl) now
        = some (Store.insert s k v (some ttl) now) ∧
      (Store.insert s k v (some ttl) now).1 = .ok () ∧
      (ttl ≤ 0 → now + ttl ≤ now) ∧
      (ttl ≤ 0 → now + ttl < t →
        qlookup (cycle t (Store.insert s k v (some ttl) now).2).queue k = none ∧
          lookupBag (cycle t (Store.insert s k v (some ttl) now).2).published k
            = none) := by
  refine ⟨?_, ?_, fun h => by omega, fun h ht => ?_⟩
  · simp [Store.insertChecked, chronoAddMs, hrange.1, hrange.2]
  · have hc : containsKey s.published k = false := by
      simp [containsKey, h1]
    simp [Store.insert, hc]
  · have hnp := nonpositive_ttl_expires s k v ttl now t h1 h2 h3 h ht
    exact ⟨hnp.2.2.1, hnp.2.2.2⟩

/-- Witness for C10 (amended) with an in-range negative TTL from the
initialized store. -/
theorem insert_ttl_range_spec_witness :
    lookupBag initState.published "k" = none ∧
      (chronoMinMs ≤ (0 : Int) + -7 ∧ (0 : Int) + -7 ≤ chronoMaxMs) ∧
      (-7 : Int) ≤ 0 ∧ (0 : Int) + -7 < 1 ∧
      (Store.insertChecked initState "k" (.str "v") (some (-7)) 0
          = some (Store.insert initState "k" (.str "v") (some (-7)) 0) ∧
        (Store.insert initState "k" (.str "v") (some (-7)) 0).1 = .ok () ∧
        ((-7 : Int) ≤ 0 → (0 : Int) + -7 ≤ 0) ∧
        ((-7 : Int) ≤ 0 → (0 : Int) + -7 < 1 →
          qlookup (cycle 1 (Store.insert initState "k" (.str "v") (some (-7)) 0).2).queue "k"
              = none ∧
            lookupBag (cycle 1 (Store.insert initState "k" (.str "v") (some (-7)) 0).2).published "k"
              = none)) :=
  ⟨by decide, by decide, by decide, by decide,
    insert_ttl_range_spec initState "k" (.str "v") (-7) 0 1 (by decide)
      (by intro op hm; simp [initState] at hm) (by decide) (by decide)⟩

/-- Witness for C2 (amended) at a concrete expired entry. -/
theorem sweep_strict_boundary_witness :
    qlookup (drain (⟨[("a", [⟨"\"x\"", some 1⟩])], [], [("a", 1)]⟩ : SysState).queue
        (⟨[("a", [⟨"\"x\"", some 1⟩])], [], [("a", 1)]⟩ : SysState).oplog) "a" = some 1 ∧
      (1 : Int) < 5 ∧
      (qlookup (cycle 5 ⟨[("a", [⟨"\"x\"", some 1⟩])], [], [("a", 1)]⟩).queue "a" = none ∧
        lookupBag (cycle 5 ⟨[("a", [⟨"\"x\"", some 1⟩])], [], [("a", 1)]⟩).published "a" = none) :=
  ⟨by decide, by decide,
    (sweep_strict_boundary ⟨[("a", [⟨"\"x\"", some 1⟩])], [], [("a", 1)]⟩ 5).2
      "a" 1 (by decide) (by decide)⟩

end KV
